import Mathlib

/-!
Verification of the topic-coherence pipeline demonstrated by
`docs/notebooks/topic_coherence_tutorial.ipynb`.  The notebook drives a
coherence pipeline (segmentation → probability estimation → confirmation
measure → aggregation) whose implementation lives outside this snapshot, so
the pipeline stages below are modelled from the specification contracts.
-/

namespace Coherence

/-- Modelled from the spec: a term identifier (spec §3, "Topic: an ordered
sequence of term identifiers"). -/
abbrev Term := Nat

/-- Modelled from the spec: a topic is an ordered sequence of term ids. -/
abbrev Topic := List Term

/-- Modelled from the spec: a bag-of-words document, a term-id → count
mapping (spec §3, "Corpus reference (a)"). -/
abbrev BowDoc := List (Term × Nat)

/-- Modelled from the spec: a corpus of bag-of-words documents. -/
abbrev BowCorpus := List BowDoc

/-- Modelled from the spec: a raw tokenized text, an ordered sequence of
term ids (spec §3, "Corpus reference (b)"). -/
abbrev Text := List Term

/-! ### Segmenter (spec §4.1) -/

/-- Helper for `s_one_pre`: walks the topic keeping the list of earlier
terms, pairing each term with every term at an earlier position. -/
def onePreAux (earlier : List Term) : Topic → List (Term × Term)
  | [] => []
  | w :: ws => earlier.map (fun e => (w, e)) ++ onePreAux (earlier ++ [w]) ws

/-- Modelled from the spec: the missing segmentation function `s_one_pre`
(a name printed by the notebook pipeline): "for each position i, pair term
i with every term at position < i".  A segment is the ordered pair
(later term, earlier term). -/
def s_one_pre (t : Topic) : List (Term × Term) := onePreAux [] t

/-- Modelled from the spec: the missing segmentation policy *one-one*:
"all distinct unordered pairs of terms in the topic", each pair listed
once in topic order. -/
def s_one_one : Topic → List (Term × Term)
  | [] => []
  | w :: ws => ws.map (fun y => (w, y)) ++ s_one_one ws

/-- Modelled from the spec: the missing segmentation function `s_one_set`
(a name printed by the notebook pipeline): "for each term, pair it with
the full remaining set of terms in the topic". -/
def s_one_set (t : Topic) : List (List Term × List Term) :=
  t.map (fun w => ([w], t.filter (fun x => x != w)))

/-! ### Probability estimator, boolean-document mode (spec §4.2) -/

/-- Modelled from the spec: a term "is present if it appears anywhere in
the bag-of-words of the document, regardless of repeated count". -/
def docHasTerm (d : BowDoc) (t : Term) : Bool :=
  d.any (fun p => decide (p.1 = t) && decide (p.2 ≠ 0))

/-- Modelled from the spec: the boolean-document total window count `N`
(one window per document). -/
def bdNumWindows (c : BowCorpus) : Nat := c.length

/-- Modelled from the spec: boolean-document per-term occurrence count —
the number of documents in which the term is present. -/
def bdOcc (c : BowCorpus) (t : Term) : Nat :=
  c.countP (fun d => docHasTerm d t)

/-- Modelled from the spec: boolean-document per-pair co-occurrence count —
the number of documents in which both terms are present. -/
def bdCoocc (c : BowCorpus) (t1 t2 : Term) : Nat :=
  c.countP (fun d => docHasTerm d t1 && docHasTerm d t2)

/-- Modelled from the spec: the frequency table (spec §3): total window
count `N`, per-term occurrence count, per-pair co-occurrence count. -/
structure FreqTable where
  nWindows : Nat
  occ : Term → Nat
  co : Term → Term → Nat

/-- Modelled from the spec: the frequency table built by a single pass
over a bag-of-words corpus under the boolean-document windowing rule. -/
def bdFreq (c : BowCorpus) : FreqTable :=
  { nWindows := bdNumWindows c, occ := bdOcc c, co := bdCoocc c }

/-! ### Confirmation measure: log conditional probability (spec §4.3) -/

/-- Modelled from the spec: the missing confirmation measure
`log_conditional_probability` (a name printed by the notebook pipeline):
`log( (co_occurrence(Wp, Ws) + ε) / occurrence(Ws) )` on a pairwise
segment (Wp, Ws). -/
noncomputable def m_lc (ε : ℝ) (tbl : FreqTable) (seg : Term × Term) : ℝ :=
  Real.log ((tbl.co seg.1 seg.2 + ε) / tbl.occ seg.2)

/-! ### Aggregator (spec §4.4) -/

/-- Arithmetic mean of a list of reals (the default reduction of the spec). -/
noncomputable def mean (xs : List ℝ) : ℝ := xs.sum / xs.length

/-- Modelled from the spec: per-topic reduction — the arithmetic mean of
the per-segment scores of the topic, undefined (excluded) when the topic
yields no segments (spec §4.4, degenerate-topic exclusion). -/
noncomputable def topicScore {σ : Type} (segment : Topic → List σ)
    (conf : Topic → σ → ℝ) (t : Topic) : Option ℝ :=
  let segs := segment t
  if segs.isEmpty then none else some (mean (segs.map (conf t)))

/-- Modelled from the spec: overall reduction — the arithmetic mean of the
defined per-topic scalars, excluding degenerate topics from the average;
`none` is the explicit "no topics scored" condition. -/
noncomputable def aggregateTopics {σ : Type} (segment : Topic → List σ)
    (conf : Topic → σ → ℝ) (topics : List Topic) : Option ℝ :=
  let scored := topics.filterMap (topicScore segment conf)
  if scored.isEmpty then none else some (mean scored)

/-! ### The u_mass pipeline -/

/-- Modelled from the spec: the `u_mass` coherence pipeline — one-pre
segmentation, boolean-document probability estimation, log conditional
probability confirmation, arithmetic-mean aggregation. -/
noncomputable def uMassCoherence (ε : ℝ) (c : BowCorpus)
    (topics : List Topic) : Option ℝ :=
  aggregateTopics s_one_pre (fun _ => m_lc ε (bdFreq c)) topics

/-- The smoothing constant ε = 1e-12 used in the worked example of the spec. -/
noncomputable def eps0 : ℝ := 1 / 10 ^ 12

/-! ### Probability estimator, boolean sliding-window mode (spec §4.2) -/

/-- Modelled from the spec: the windows of one tokenized text under a
fixed-size sliding window "slid one token at a time"; a text no longer
than the window size yields the single whole-text window (the boundary
case described by the convergence property of the spec). -/
def slidingWindows (s : Nat) (tx : Text) : List Text :=
  if tx.length ≤ s then [tx]
  else (List.range (tx.length - s + 1)).map (fun i => (tx.drop i).take s)

/-- Modelled from the spec: "a term is present in a window if it appears
in that span at least once". -/
def windowHasTerm (w : Text) (t : Term) : Bool := decide (t ∈ w)

/-- Modelled from the spec: sliding-window total window count `N` over a
collection of tokenized texts. -/
def swNumWindows (s : Nat) (txs : List Text) : Nat :=
  (txs.map (fun tx => (slidingWindows s tx).length)).sum

/-- Modelled from the spec: sliding-window per-term occurrence count — the
number of windows in which the term is present. -/
def swOcc (s : Nat) (txs : List Text) (t : Term) : Nat :=
  (txs.map (fun tx => (slidingWindows s tx).countP (fun w => windowHasTerm w t))).sum

/-- Modelled from the spec: sliding-window per-pair co-occurrence count —
the number of windows in which both terms are present. -/
def swCoocc (s : Nat) (txs : List Text) (t1 t2 : Term) : Nat :=
  (txs.map (fun tx => (slidingWindows s tx).countP
    (fun w => windowHasTerm w t1 && windowHasTerm w t2))).sum

/-- Modelled from the spec: the frequency table built by a single pass over
tokenized texts under the boolean sliding-window rule. -/
def swFreq (s : Nat) (txs : List Text) : FreqTable :=
  { nWindows := swNumWindows s txs, occ := swOcc s txs, co := swCoocc s txs }

/-- The bag-of-words form of a tokenized text (term → its token count),
used to compare the two estimation modes on the same document. -/
def textToBow (tx : Text) : BowDoc :=
  tx.dedup.map (fun t => (t, tx.count t))

/-! ### Confirmation measure: cosine similarity over NPMI vectors (§4.3) -/

/-- Modelled from the spec: the probability of a term, estimated as
count/N from the frequency table. -/
noncomputable def pTerm (tbl : FreqTable) (t : Term) : ℝ :=
  tbl.occ t / tbl.nWindows

/-- Modelled from the spec: the joint probability of a term pair,
estimated as count/N from the frequency table. -/
noncomputable def pPair (tbl : FreqTable) (t1 t2 : Term) : ℝ :=
  tbl.co t1 t2 / tbl.nWindows

/-- Modelled from the spec: NPMI(t1,t2) =
`log( P(t1,t2)/(P(t1)·P(t2)) + ε ) / -log(P(t1,t2) + ε)`. -/
noncomputable def npmi (ε : ℝ) (tbl : FreqTable) (t1 t2 : Term) : ℝ :=
  Real.log (pPair tbl t1 t2 / (pTerm tbl t1 * pTerm tbl t2) + ε) /
    (-Real.log (pPair tbl t1 t2 + ε))

/-- Modelled from the spec: the aggregated NPMI context vector of a term
subset S — for each context term w_j of the topic, the sum over w ∈ S of
NPMI(w, w_j). -/
noncomputable def ctxVec (ε : ℝ) (tbl : FreqTable) (topic : Topic)
    (S : List Term) : List ℝ :=
  topic.map (fun wj => (S.map (fun w => npmi ε tbl w wj)).sum)

/-- Dot product of two real vectors given as lists. -/
noncomputable def dotProd (u v : List ℝ) : ℝ :=
  (List.zipWith (fun a b => a * b) u v).sum

/-- Squared Euclidean norm of a real vector given as a list. -/
noncomputable def sqNorm (u : List ℝ) : ℝ := dotProd u u

/-- Cosine similarity of two real vectors. -/
noncomputable def cosSim (u v : List ℝ) : ℝ :=
  dotProd u v / Real.sqrt (sqNorm u * sqNorm v)

/-- Modelled from the spec: the missing confirmation measure
`cosine_similarity` (a name printed by the notebook pipeline) — the
cosine similarity between the aggregated NPMI context vectors of the two
sides of a set segment. -/
noncomputable def m_cos (ε : ℝ) (tbl : FreqTable) (topic : Topic)
    (seg : List Term × List Term) : ℝ :=
  cosSim (ctxVec ε tbl topic seg.1) (ctxVec ε tbl topic seg.2)

/-! ### The c_v pipeline and the named-measure dispatch -/

/-- Modelled from the spec: the `c_v` coherence pipeline — one-set
segmentation, boolean sliding-window probability estimation, cosine
similarity over NPMI vectors, arithmetic-mean aggregation. -/
noncomputable def cvCoherence (ε : ℝ) (s : Nat) (txs : List Text)
    (topics : List Topic) : Option ℝ :=
  aggregateTopics s_one_set (fun t => m_cos ε (swFreq s txs) t) topics

/-- Modelled from the spec: the error conditions of §7 — a missing
required input or an unsupported named measure, detected before any
corpus scan. -/
inductive PipeError where
  | missingCorpus : PipeError
  | missingTexts : PipeError
  | unsupportedCoherence : PipeError
deriving DecidableEq, Repr

/-- Modelled from the spec: the named-measure dispatch of the notebook API
`CoherenceModel(..., coherence=name)` with name u_mass or c_v.  `u_mass` requires a
bag-of-words corpus, `c_v` requires tokenized texts; a missing required
input or an unknown name fails fast with a descriptive error and no
partial result. -/
noncomputable def runCoherence (name : String) (ε : ℝ) (ws : Nat)
    (corpus : Option BowCorpus) (texts : Option (List Text))
    (topics : List Topic) : Except PipeError (Option ℝ) :=
  if name = "u_mass" then
    match corpus with
    | none => .error .missingCorpus
    | some c => .ok (uMassCoherence ε c topics)
  else if name = "c_v" then
    match texts with
    | none => .error .missingTexts
    | some txs => .ok (cvCoherence ε ws txs topics)
  else .error .unsupportedCoherence

/-! ### Definedness tracking for the confirmation measures (spec §4.3)

The spec demands that both measures "return a defined finite value, never
propagate NaN/Inf into the aggregate".  The variants below evaluate the
same formulas but make every primitive partial exactly where a
floating-point evaluation would produce a non-finite value: division by
zero and the logarithm of a non-positive number yield `none`. -/

/-- Division that is undefined (non-finite in floating point) at a zero
denominator. -/
noncomputable def pdiv (x y : ℝ) : Option ℝ :=
  if y = 0 then none else some (x / y)

/-- Logarithm that is undefined (non-finite in floating point) on
non-positive arguments. -/
noncomputable def plog (x : ℝ) : Option ℝ :=
  if x ≤ 0 then none else some (Real.log x)

/-- Modelled from the spec: log conditional probability with explicit
definedness — `log((co + ε) / occ)` evaluated through the partial
primitives. -/
noncomputable def m_lcP (ε : ℝ) (tbl : FreqTable) (seg : Term × Term) :
    Option ℝ :=
  (pdiv (tbl.co seg.1 seg.2 + ε) (tbl.occ seg.2)).bind plog

/-- Modelled from the spec: NPMI with explicit definedness — each division
and logarithm of the formula evaluated through the partial primitives. -/
noncomputable def npmiP (ε : ℝ) (tbl : FreqTable) (t1 t2 : Term) :
    Option ℝ := do
  let r ← pdiv (pPair tbl t1 t2) (pTerm tbl t1 * pTerm tbl t2)
  let num ← plog (r + ε)
  let den ← plog (pPair tbl t1 t2 + ε)
  pdiv num (-den)

/-- Modelled from the spec: the aggregated NPMI context vector with
explicit definedness — defined when every NPMI entry is defined. -/
noncomputable def ctxVecP (ε : ℝ) (tbl : FreqTable) (topic : Topic)
    (S : List Term) : Option (List ℝ) :=
  topic.mapM (fun wj => (S.mapM (fun w => npmiP ε tbl w wj)).map List.sum)

/-- Modelled from the spec: cosine similarity over NPMI vectors with
explicit definedness — undefined when an NPMI entry is undefined or when
either aggregated vector has zero norm. -/
noncomputable def m_cosP (ε : ℝ) (tbl : FreqTable) (topic : Topic)
    (seg : List Term × List Term) : Option ℝ := do
  let u ← ctxVecP ε tbl topic seg.1
  let v ← ctxVecP ε tbl topic seg.2
  pdiv (dotProd u v) (Real.sqrt (sqNorm u * sqNorm v))

/-- The example topics [[A,B],[C,D]] with A,B,C,D coded as 0,1,2,3. -/
def exTopics : List Topic := [[0, 1], [2, 3]]

/-- The example corpus of two bag-of-words documents {A:1,B:1}, {C:1,D:1}. -/
def exCorpus : BowCorpus := [[(0, 1), (1, 1)], [(2, 1), (3, 1)]]

/-- A frequency table with zero counts throughout, as arises from topics
of out-of-vocabulary terms over an empty corpus. -/
def zeroTbl : FreqTable := ⟨0, fun _ => 0, fun _ _ => 0⟩

/-- A one-document corpus containing both terms 0 and 1, giving a
frequency table whose counts are all one. -/
def witCorpus : BowCorpus := [[(0, 1), (1, 1)]]

/-! ### Lemmas about the one-one segmenter -/

lemma s_one_one_length (t : Topic) :
    (s_one_one t).length = Nat.choose t.length 2 := by
  induction t with
  | nil => simp [s_one_one]
  | cons w ws ih =>
    simp only [s_one_one, List.length_append, List.length_map, ih,
      List.length_cons]
    rw [Nat.choose_succ_succ, Nat.choose_one_right]

lemma mem_s_one_one {p : Term × Term} {t : Topic} (h : p ∈ s_one_one t) :
    p.1 ∈ t ∧ p.2 ∈ t := by
  induction t with
  | nil => simp [s_one_one] at h
  | cons w ws ih =>
    simp only [s_one_one, List.mem_append, List.mem_map] at h
    rcases h with ⟨y, hy, hp⟩ | h
    · rw [← hp]
      exact ⟨List.mem_cons_self _ _, List.mem_cons_of_mem _ hy⟩
    · exact ⟨List.mem_cons_of_mem _ (ih h).1, List.mem_cons_of_mem _ (ih h).2⟩

lemma countP_eq_one_of_nodup_mem {l : List Term} {b : Term}
    (hd : l.Nodup) (hb : b ∈ l) :
    l.countP (fun y => decide (y = b)) = 1 := by
  have h1 : l.countP (fun y => decide (y = b)) = l.countP (fun y => y == b) :=
    List.countP_congr (fun x _ => by simp)
  rw [h1, ← List.count_eq_countP, List.count_eq_one_of_mem hd hb]

lemma s_one_one_countP (t : Topic) (hd : t.Nodup) {a b : Term}
    (ha : a ∈ t) (hb : b ∈ t) (hab : a ≠ b) :
    (s_one_one t).countP
      (fun p => decide ((p.1 = a ∧ p.2 = b) ∨ (p.1 = b ∧ p.2 = a))) = 1 := by
  induction t with
  | nil => simp at ha
  | cons w ws ih =>
    obtain ⟨hw, hdws⟩ := List.nodup_cons.mp hd
    rw [show s_one_one (w :: ws) =
        ws.map (fun y => (w, y)) ++ s_one_one ws from rfl,
      List.countP_append, List.countP_map]
    by_cases haw : a = w
    · have hbw : b ≠ w := fun hbw => hab (haw.trans hbw.symm)
      have hbws : b ∈ ws := (List.mem_cons.mp hb).resolve_left hbw
      have h1 : ws.countP
          ((fun p : Term × Term =>
            decide ((p.1 = a ∧ p.2 = b) ∨ (p.1 = b ∧ p.2 = a))) ∘
            (fun y => (w, y))) = ws.countP (fun y => decide (y = b)) := by
        apply List.countP_congr
        intro y _
        simp only [Function.comp_apply, decide_eq_true_eq]
        constructor
        · rintro (⟨_, h⟩ | ⟨hwb, _⟩)
          · exact h
          · exact absurd hwb.symm hbw
        · intro h
          exact Or.inl ⟨haw.symm, h⟩
      have h2 : (s_one_one ws).countP
          (fun p => decide ((p.1 = a ∧ p.2 = b) ∨ (p.1 = b ∧ p.2 = a))) = 0 := by
        apply List.countP_eq_zero.mpr
        intro p hp
        have hm := mem_s_one_one hp
        simp only [decide_eq_true_eq]
        rintro (⟨h1, _⟩ | ⟨_, h2⟩)
        · exact hw (haw ▸ h1 ▸ hm.1)
        · exact hw (haw ▸ h2 ▸ hm.2)
      rw [h1, h2, countP_eq_one_of_nodup_mem hdws hbws]
    · by_cases hbw : b = w
      · have hawne : a ≠ w := haw
        have haws : a ∈ ws := (List.mem_cons.mp ha).resolve_left hawne
        have h1 : ws.countP
            ((fun p : Term × Term =>
              decide ((p.1 = a ∧ p.2 = b) ∨ (p.1 = b ∧ p.2 = a))) ∘
              (fun y => (w, y))) = ws.countP (fun y => decide (y = a)) := by
          apply List.countP_congr
          intro y _
          simp only [Function.comp_apply, decide_eq_true_eq]
          constructor
          · rintro (⟨hwa, _⟩ | ⟨_, h⟩)
            · exact absurd hwa.symm hawne
            · exact h
          · intro h
            exact Or.inr ⟨hbw.symm, h⟩
        have h2 : (s_one_one ws).countP
            (fun p => decide ((p.1 = a ∧ p.2 = b) ∨ (p.1 = b ∧ p.2 = a))) = 0 := by
          apply List.countP_eq_zero.mpr
          intro p hp
          have hm := mem_s_one_one hp
          simp only [decide_eq_true_eq]
          rintro (⟨_, h1⟩ | ⟨h2, _⟩)
          · exact hw (hbw ▸ h1 ▸ hm.2)
          · exact hw (hbw ▸ h2 ▸ hm.1)
        rw [h1, h2, countP_eq_one_of_nodup_mem hdws haws]
      · have haws : a ∈ ws := (List.mem_cons.mp ha).resolve_left haw
        have hbws : b ∈ ws := (List.mem_cons.mp hb).resolve_left hbw
        have h1 : ws.countP
            ((fun p : Term × Term =>
              decide ((p.1 = a ∧ p.2 = b) ∨ (p.1 = b ∧ p.2 = a))) ∘
              (fun y => (w, y))) = 0 := by
          apply List.countP_eq_zero.mpr
          intro y _
          simp only [Function.comp_apply, decide_eq_true_eq]
          rintro (⟨hwa, _⟩ | ⟨hwb, _⟩)
          · exact haw hwa.symm
          · exact hbw hwb.symm
        rw [h1, ih hdws haws hbws]

/-- Counterexample to C2 as stated for all topics: in the topic [1,2,2]
with a duplicated term, the unordered pair {1,2} appears in two one-one
segments, not exactly one. -/
theorem one_one_duplicate_pair_counterexample :
    2 ≤ ([1, 2, 2] : Topic).length ∧ (1 : Term) ∈ ([1, 2, 2] : Topic) ∧
    (2 : Term) ∈ ([1, 2, 2] : Topic) ∧ (1 : Term) ≠ 2 ∧
    (s_one_one [1, 2, 2]).countP
      (fun p => decide ((p.1 = 1 ∧ p.2 = 2) ∨ (p.1 = 2 ∧ p.2 = 1))) = 2 := by
  decide

/-- C2: for every topic with k ≥ 2 distinct terms, one-one segmentation
produces exactly k*(k-1)/2 segments, and every distinct unordered pair of
terms of the topic appears in exactly one segment. -/
theorem one_one_segment_coverage (t : Topic) (hk : 2 ≤ t.length)
    (hd : t.Nodup) :
    (s_one_one t).length = t.length * (t.length - 1) / 2 ∧
    ∀ a b : Term, a ∈ t → b ∈ t → a ≠ b →
      (s_one_one t).countP
        (fun p => decide ((p.1 = a ∧ p.2 = b) ∨ (p.1 = b ∧ p.2 = a))) = 1 := by
  refine ⟨?_, fun a b ha hb hab => s_one_one_countP t hd ha hb hab⟩
  rw [s_one_one_length, Nat.choose_two_right]

/-- Witness for C2 at the concrete topic [0,1,2]. -/
theorem one_one_segment_coverage_witness :
    2 ≤ ([0, 1, 2] : Topic).length ∧ ([0, 1, 2] : Topic).Nodup ∧
    (s_one_one [0, 1, 2]).length = 3 ∧
    (s_one_one [0, 1, 2]).countP
      (fun p => decide ((p.1 = 0 ∧ p.2 = 2) ∨ (p.1 = 2 ∧ p.2 = 0))) = 1 := by
  refine ⟨by decide, by decide, ?_, ?_⟩
  · exact (one_one_segment_coverage [0, 1, 2] (by decide) (by decide)).1
  · exact (one_one_segment_coverage [0, 1, 2] (by decide) (by decide)).2
      0 2 (by decide) (by decide) (by decide)

/-! ### Boundary convergence of the two estimation modes -/

lemma docHasTerm_textToBow (tx : Text) (t : Term) :
    docHasTerm (textToBow tx) t = decide (t ∈ tx) := by
  by_cases h : t ∈ tx
  · have h1 : docHasTerm (textToBow tx) t = true := by
      rw [docHasTerm, List.any_eq_true]
      refine ⟨(t, tx.count t), ?_, ?_⟩
      · rw [textToBow, List.mem_map]
        exact ⟨t, List.mem_dedup.mpr h, rfl⟩
      · simp only [Bool.and_eq_true, decide_eq_true_eq]
        exact ⟨trivial, fun hc => (List.count_eq_zero.mp hc) h⟩
    rw [h1, decide_eq_true h]
  · have h2 : docHasTerm (textToBow tx) t = false := by
      rw [docHasTerm, List.any_eq_false]
      intro p hp
      rw [textToBow, List.mem_map] at hp
      obtain ⟨u, hu, hpu⟩ := hp
      simp only [Bool.and_eq_true, decide_eq_true_eq, not_and]
      intro h1
      exfalso
      exact h ((h1 ▸ hpu ▸ rfl : u = t) ▸ List.mem_dedup.mp hu)
    rw [h2, decide_eq_false h]

/-- C3: on any single document, the boolean sliding-window estimator with
window size at least the token length of the document yields the same window
count and the same occurrence and co-occurrence counts as the
boolean-document estimator on the bag-of-words of that document. -/
theorem sliding_window_boundary_convergence (tx : Text) (s : Nat)
    (hs : tx.length ≤ s) :
    swNumWindows s [tx] = bdNumWindows [textToBow tx] ∧
    (∀ t : Term, swOcc s [tx] t = bdOcc [textToBow tx] t) ∧
    (∀ t1 t2 : Term,
      swCoocc s [tx] t1 t2 = bdCoocc [textToBow tx] t1 t2) := by
  have hw : slidingWindows s tx = [tx] := by
    rw [slidingWindows, if_pos hs]
  refine ⟨?_, fun t => ?_, fun t1 t2 => ?_⟩
  · simp [swNumWindows, bdNumWindows, hw, textToBow]
  · simp only [swOcc, bdOcc, hw, List.map_cons, List.map_nil,
      List.countP_cons, List.countP_nil, List.sum_cons, List.sum_nil,
      windowHasTerm, docHasTerm_textToBow]
    omega
  · simp only [swCoocc, bdCoocc, hw, List.map_cons, List.map_nil,
      List.countP_cons, List.countP_nil, List.sum_cons, List.sum_nil,
      windowHasTerm, docHasTerm_textToBow]
    omega

/-- Witness for C3 at the concrete document [0,1,0] with window size 5. -/
theorem sliding_window_boundary_convergence_witness :
    ([0, 1, 0] : Text).length ≤ 5 ∧
    swNumWindows 5 [[0, 1, 0]] = bdNumWindows [textToBow [0, 1, 0]] ∧
    swOcc 5 [[0, 1, 0]] 0 = bdOcc [textToBow [0, 1, 0]] 0 ∧
    swCoocc 5 [[0, 1, 0]] 0 1 = bdCoocc [textToBow [0, 1, 0]] 0 1 := by
  refine ⟨by decide, ?_, ?_, ?_⟩
  · exact (sliding_window_boundary_convergence [0, 1, 0] 5 (by decide)).1
  · exact (sliding_window_boundary_convergence [0, 1, 0] 5 (by decide)).2.1 0
  · exact (sliding_window_boundary_convergence [0, 1, 0] 5 (by decide)).2.2 0 1

/-! ### The worked u_mass example of the spec -/


lemma eps0_pos : 0 < eps0 := by rw [eps0]; norm_num

lemma exTopicScore1 :
    topicScore s_one_pre (fun _ => m_lc eps0 (bdFreq exCorpus)) [0, 1] =
      some (Real.log (1 + eps0)) := by
  have hseg : s_one_pre [0, 1] = [(1, 0)] := by decide
  have hco : (bdFreq exCorpus).co 1 0 = 1 := by decide
  have hocc : (bdFreq exCorpus).occ 0 = 1 := by decide
  rw [topicScore]
  simp only [hseg, List.isEmpty_cons, List.map_cons, List.map_nil,
    Bool.false_eq_true, if_false, mean, List.sum_cons, List.sum_nil,
    List.length_cons, List.length_nil]
  rw [m_lc]
  simp only [hco, hocc]
  push_cast
  norm_num

lemma exTopicScore2 :
    topicScore s_one_pre (fun _ => m_lc eps0 (bdFreq exCorpus)) [2, 3] =
      some (Real.log (1 + eps0)) := by
  have hseg : s_one_pre [2, 3] = [(3, 2)] := by decide
  have hco : (bdFreq exCorpus).co 3 2 = 1 := by decide
  have hocc : (bdFreq exCorpus).occ 2 = 1 := by decide
  rw [topicScore]
  simp only [hseg, List.isEmpty_cons, List.map_cons, List.map_nil,
    Bool.false_eq_true, if_false, mean, List.sum_cons, List.sum_nil,
    List.length_cons, List.length_nil]
  rw [m_lc]
  simp only [hco, hocc]
  push_cast
  norm_num

/-- C1: on topics [[A,B],[C,D]] and the two documents {A:1,B:1}, {C:1,D:1},
the u_mass pipeline (one-pre segmentation, boolean-document estimation,
log conditional probability with ε = 1e-12) produces the single segment
({B},{A}) for topic 1; the segment score, each topic score and the overall
coherence all equal log(1+ε), which lies within ε of 0. -/
theorem u_mass_end_to_end_example :
    s_one_pre [0, 1] = [(1, 0)] ∧
    m_lc eps0 (bdFreq exCorpus) (1, 0) = Real.log ((1 + eps0) / 1) ∧
    uMassCoherence eps0 exCorpus exTopics = some (Real.log (1 + eps0)) ∧
    |Real.log (1 + eps0)| ≤ eps0 := by
  refine ⟨by decide, ?_, ?_, ?_⟩
  · have hco : (bdFreq exCorpus).co 1 0 = 1 := by decide
    have hocc : (bdFreq exCorpus).occ 0 = 1 := by decide
    rw [m_lc]
    simp only [hco, hocc]
    push_cast
    ring_nf
  · rw [uMassCoherence, aggregateTopics]
    simp only [exTopics, List.filterMap_cons, List.filterMap_nil,
      exTopicScore1, exTopicScore2]
    simp only [List.isEmpty_cons, Bool.false_eq_true, if_false, mean,
      List.sum_cons, List.sum_nil, List.length_cons, List.length_nil]
    congr 1
    push_cast
    ring
  · have h1 : (0 : ℝ) ≤ Real.log (1 + eps0) :=
      Real.log_nonneg (by linarith [eps0_pos])
    have h2 : Real.log (1 + eps0) ≤ eps0 := by
      have := Real.log_le_sub_one_of_pos
        (show (0 : ℝ) < 1 + eps0 by linarith [eps0_pos])
      linarith
    rw [abs_of_nonneg h1]
    exact h2

/-! ### Aggregation: exclusion of degenerate topics -/

lemma topicScore_of_nil {σ : Type} (segment : Topic → List σ)
    (conf : Topic → σ → ℝ) (d : Topic) (hd : segment d = []) :
    topicScore segment conf d = none := by
  rw [topicScore]
  simp [hd]

/-- C5: when a topic in the sequence is degenerate (one-pre segmentation
yields no segments for it, and it is the only such topic), the overall
u_mass coherence equals the overall coherence of the sequence with that
topic removed: degenerate topics are excluded from the final average, not
counted as zero. -/
theorem degenerate_topic_exclusion (ε : ℝ) (c : BowCorpus)
    (pre post : List Topic) (d : Topic) (hd : s_one_pre d = [])
    (hone : (pre ++ d :: post).countP
      (fun tp => (s_one_pre tp).isEmpty) = 1) :
    uMassCoherence ε c (pre ++ d :: post) = uMassCoherence ε c (pre ++ post) := by
  rw [uMassCoherence, uMassCoherence, aggregateTopics, aggregateTopics]
  have h : (pre ++ d :: post).filterMap
      (topicScore s_one_pre (fun _ => m_lc ε (bdFreq c))) =
      (pre ++ post).filterMap
      (topicScore s_one_pre (fun _ => m_lc ε (bdFreq c))) := by
    rw [List.filterMap_append, List.filterMap_append,
      List.filterMap_cons_none (topicScore_of_nil _ _ _ hd)]
  rw [h]

/-- Witness for C5: dropping the degenerate singleton topic [5] from the
example sequence leaves the overall coherence unchanged. -/
theorem degenerate_topic_exclusion_witness :
    s_one_pre [5] = [] ∧
    ([[0, 1]] ++ [5] :: [[2, 3]]).countP
      (fun tp => (s_one_pre tp).isEmpty) = 1 ∧
    uMassCoherence eps0 exCorpus ([[0, 1]] ++ [5] :: [[2, 3]]) =
      uMassCoherence eps0 exCorpus ([[0, 1]] ++ [[2, 3]]) := by
  refine ⟨by decide, by decide, ?_⟩
  exact degenerate_topic_exclusion eps0 exCorpus [[0, 1]] [[2, 3]] [5]
    (by decide) (by decide)

/-! ### Determinism of the pipeline -/

/-- C6: the pipeline is a pure function of its configuration and inputs —
two runs on identical named measure, smoothing constant, window size,
corpus reference, texts and topics produce exactly equal results. -/
theorem pipeline_deterministic (n1 n2 : String) (ε1 ε2 : ℝ) (w1 w2 : Nat)
    (c1 c2 : Option BowCorpus) (t1 t2 : Option (List Text))
    (tp1 tp2 : List Topic) (hn : n1 = n2) (he : ε1 = ε2) (hw : w1 = w2)
    (hc : c1 = c2) (ht : t1 = t2) (htp : tp1 = tp2) :
    runCoherence n1 ε1 w1 c1 t1 tp1 = runCoherence n2 ε2 w2 c2 t2 tp2 := by
  rw [hn, he, hw, hc, ht, htp]

/-- Witness for C6 at a concrete u_mass configuration. -/
theorem pipeline_deterministic_witness :
    runCoherence "u_mass" eps0 110 (some exCorpus) none exTopics =
      runCoherence "u_mass" eps0 110 (some exCorpus) none exTopics :=
  pipeline_deterministic "u_mass" "u_mass" eps0 eps0 110 110
    (some exCorpus) (some exCorpus) none none exTopics exTopics
    rfl rfl rfl rfl rfl rfl

/-! ### Error propagation and totality of the dispatch -/

lemma topicScore_eq_none_iff {σ : Type} (segment : Topic → List σ)
    (conf : Topic → σ → ℝ) (t : Topic) :
    topicScore segment conf t = none ↔ segment t = [] := by
  rw [topicScore]
  by_cases h : (segment t).isEmpty
  · simp [h, List.isEmpty_iff.mp h]
  · simp only [h, Bool.false_eq_true, if_false]
    constructor
    · intro hc
      exact absurd hc (by simp)
    · intro hnil
      exact absurd (List.isEmpty_iff.mpr hnil) h

lemma aggregateTopics_eq_none_iff {σ : Type} (segment : Topic → List σ)
    (conf : Topic → σ → ℝ) (topics : List Topic) :
    aggregateTopics segment conf topics = none ↔
      ∀ t ∈ topics, segment t = [] := by
  rw [aggregateTopics]
  have key : topics.filterMap (topicScore segment conf) = [] ↔
      ∀ t ∈ topics, segment t = [] := by
    rw [List.filterMap_eq_nil_iff]
    exact forall₂_congr (fun t _ => topicScore_eq_none_iff segment conf t)
  by_cases h : (topics.filterMap (topicScore segment conf)).isEmpty
  · simp only [h, if_true]
    exact iff_of_true trivial (key.mp (List.isEmpty_iff.mp h))
  · simp only [h, Bool.false_eq_true, if_false]
    constructor
    · intro hc
      exact absurd hc (by simp)
    · intro hall
      exact absurd (List.isEmpty_iff.mpr (key.mpr hall)) h

/-- C7: the dispatch validates its configuration before touching the
corpus: a u_mass run without a bag-of-words corpus, a c_v run without
tokenized texts, and any unknown measure name fail with a descriptive
error and no partial result, while every correctly configured run returns
a single result which is the explicit "no topics scored" condition exactly
when every topic is degenerate. -/
theorem error_propagation_policy (ε : ℝ) (ws : Nat) (topics : List Topic) :
    (∀ (c : BowCorpus) (tx : Option (List Text)), ∃ out,
      runCoherence "u_mass" ε ws (some c) tx topics = .ok out ∧
        (out = none ↔ ∀ t ∈ topics, s_one_pre t = [])) ∧
    (∀ (co : Option BowCorpus) (txs : List Text), ∃ out,
      runCoherence "c_v" ε ws co (some txs) topics = .ok out ∧
        (out = none ↔ ∀ t ∈ topics, s_one_set t = [])) ∧
    (∀ tx : Option (List Text),
      runCoherence "u_mass" ε ws none tx topics = .error .missingCorpus) ∧
    (∀ co : Option BowCorpus,
      runCoherence "c_v" ε ws co none topics = .error .missingTexts) ∧
    (∀ (name : String) (co : Option BowCorpus) (tx : Option (List Text)),
      name ≠ "u_mass" → name ≠ "c_v" →
      runCoherence name ε ws co tx topics = .error .unsupportedCoherence) := by
  refine ⟨?_, ?_, ?_, ?_, ?_⟩
  · intro c tx
    refine ⟨uMassCoherence ε c topics, ?_, ?_⟩
    · simp [runCoherence]
    · exact aggregateTopics_eq_none_iff _ _ topics
  · intro co txs
    refine ⟨cvCoherence ε ws txs topics, ?_, ?_⟩
    · simp [runCoherence]
    · exact aggregateTopics_eq_none_iff _ _ topics
  · intro tx
    simp [runCoherence]
  · intro co
    simp [runCoherence]
  · intro name co tx h1 h2
    rw [runCoherence.eq_def, if_neg h1, if_neg h2]

/-- Witness for C7: the unsupported name "c_uci" fails fast, and a
well-configured u_mass run on the example inputs returns a result. -/
theorem error_propagation_policy_witness :
    ("c_uci" : String) ≠ "u_mass" ∧ ("c_uci" : String) ≠ "c_v" ∧
    runCoherence "c_uci" eps0 110 (some exCorpus) none exTopics =
      .error .unsupportedCoherence ∧
    (∃ out, runCoherence "u_mass" eps0 110 (some exCorpus) none exTopics =
      .ok out ∧ (out = none ↔ ∀ t ∈ exTopics, s_one_pre t = [])) ∧
    runCoherence "u_mass" eps0 110 none none exTopics =
      .error .missingCorpus := by
  refine ⟨by decide, by decide, ?_, ?_, ?_⟩
  · exact (error_propagation_policy eps0 110 exTopics).2.2.2.2 "c_uci"
      (some exCorpus) none (by decide) (by decide)
  · exact (error_propagation_policy eps0 110 exTopics).1 exCorpus none
  · exact (error_propagation_policy eps0 110 exTopics).2.2.1 none

/-! ### Out-of-vocabulary terms -/

lemma s_one_pre_cons_cons (a b : Term) (rest : Topic) :
    s_one_pre (a :: b :: rest) = (b, a) :: onePreAux [a, b] rest := rfl

/-- C8: a term absent from every document of the corpus gets occurrence
count zero in the frequency table, and a u_mass run over topics containing
that term still completes and returns a score (no error aborts the run). -/
theorem oov_term_zero_probability (c : BowCorpus) (t : Term)
    (habs : ∀ d ∈ c, docHasTerm d t = false) (ε : ℝ) (a b : Term)
    (rest : Topic) (more : List Topic) (hmem : t ∈ (a :: b :: rest : Topic)) :
    bdOcc c t = 0 ∧
    ∃ r : ℝ, uMassCoherence ε c ((a :: b :: rest) :: more) = some r := by
  constructor
  · exact List.countP_eq_zero.mpr (fun d hd => by rw [habs d hd]; decide)
  · rw [uMassCoherence, aggregateTopics]
    have hts : topicScore s_one_pre (fun _ => m_lc ε (bdFreq c))
        (a :: b :: rest) = some (mean ((s_one_pre (a :: b :: rest)).map
          (m_lc ε (bdFreq c)))) := by
      rw [topicScore]
      simp [s_one_pre_cons_cons]
    rw [List.filterMap_cons_some hts]
    simp

/-- Witness for C8: term 7 is absent from the example corpus, yet the run
over the topic [7,0] returns a score. -/
theorem oov_term_zero_probability_witness :
    (∀ d ∈ exCorpus, docHasTerm d 7 = false) ∧ (7 ∈ ([7, 0] : Topic)) ∧
    bdOcc exCorpus 7 = 0 ∧
    ∃ r : ℝ, uMassCoherence eps0 exCorpus [[7, 0]] = some r := by
  refine ⟨by decide, by decide, ?_⟩
  exact oov_term_zero_probability exCorpus 7 (by decide) eps0 7 0 [] []
    (by decide)

/-! ### Scale invariance under corpus doubling -/

lemma sum_map_append_self {α : Type} (f : α → Nat) (l : List α) :
    ((l ++ l).map f).sum = 2 * (l.map f).sum := by
  rw [List.map_append, List.sum_append, two_mul]

lemma swNumWindows_double (s : Nat) (txs : List Text) :
    swNumWindows s (txs ++ txs) = 2 * swNumWindows s txs :=
  sum_map_append_self _ txs

lemma swOcc_double (s : Nat) (txs : List Text) (t : Term) :
    swOcc s (txs ++ txs) t = 2 * swOcc s txs t :=
  sum_map_append_self _ txs

lemma swCoocc_double (s : Nat) (txs : List Text) (t1 t2 : Term) :
    swCoocc s (txs ++ txs) t1 t2 = 2 * swCoocc s txs t1 t2 :=
  sum_map_append_self _ txs

lemma pTerm_swFreq_double (s : Nat) (txs : List Text) (t : Term) :
    pTerm (swFreq s (txs ++ txs)) t = pTerm (swFreq s txs) t := by
  rw [pTerm, pTerm, swFreq, swFreq]
  simp only [swOcc_double, swNumWindows_double]
  push_cast
  exact mul_div_mul_left _ _ two_ne_zero

lemma pPair_swFreq_double (s : Nat) (txs : List Text) (t1 t2 : Term) :
    pPair (swFreq s (txs ++ txs)) t1 t2 = pPair (swFreq s txs) t1 t2 := by
  rw [pPair, pPair, swFreq, swFreq]
  simp only [swCoocc_double, swNumWindows_double]
  push_cast
  exact mul_div_mul_left _ _ two_ne_zero

lemma npmi_swFreq_double (ε : ℝ) (s : Nat) (txs : List Text) (t1 t2 : Term) :
    npmi ε (swFreq s (txs ++ txs)) t1 t2 = npmi ε (swFreq s txs) t1 t2 := by
  rw [npmi, npmi, pTerm_swFreq_double, pTerm_swFreq_double,
    pPair_swFreq_double]

lemma m_cos_swFreq_double (ε : ℝ) (s : Nat) (txs : List Text) (t : Topic)
    (sg : List Term × List Term) :
    m_cos ε (swFreq s (txs ++ txs)) t sg = m_cos ε (swFreq s txs) t sg := by
  simp only [m_cos, ctxVec, npmi_swFreq_double]

lemma bdOcc_double (c : BowCorpus) (t : Term) :
    bdOcc (c ++ c) t = 2 * bdOcc c t := by
  rw [bdOcc, bdOcc, List.countP_append, two_mul]

lemma bdCoocc_double (c : BowCorpus) (t1 t2 : Term) :
    bdCoocc (c ++ c) t1 t2 = 2 * bdCoocc c t1 t2 := by
  rw [bdCoocc, bdCoocc, List.countP_append, two_mul]

/-- C9: doubling the corpus (which doubles the window count and every
occurrence and co-occurrence count) leaves every cosine-similarity-based
coherence score unchanged; the log-conditional-probability score of a
doubled table equals the original score with the smoothing constant ε
halved, so it changes only through the ε term, never through N directly. -/
theorem corpus_doubling_scale_invariance (ε : ℝ) (s : Nat)
    (txs : List Text) (topics : List Topic) (c : BowCorpus)
    (p : Term × Term) :
    cvCoherence ε s (txs ++ txs) topics = cvCoherence ε s txs topics ∧
    m_lc ε (bdFreq (c ++ c)) p = m_lc (ε / 2) (bdFreq c) p := by
  constructor
  · have hfun : (fun t => m_cos ε (swFreq s (txs ++ txs)) t) =
        (fun t => m_cos ε (swFreq s txs) t) := by
      funext t sg
      exact m_cos_swFreq_double ε s txs t sg
    rw [cvCoherence, cvCoherence, hfun]
  · rw [m_lc, m_lc]
    show Real.log ((bdCoocc (c ++ c) p.1 p.2 + ε) / bdOcc (c ++ c) p.2) = _
    rw [bdCoocc_double, bdOcc_double]
    congr 1
    push_cast
    rw [show (2 * (bdCoocc c p.1 p.2 : ℝ) + ε) =
      2 * (bdCoocc c p.1 p.2 + ε / 2) from by ring]
    exact mul_div_mul_left _ _ two_ne_zero

/-! ### Composition of the named measures -/

/-- C10: dispatching on the name `u_mass` computes exactly the composition
of one-pre segmentation, boolean-document estimation, log conditional
probability and arithmetic-mean aggregation, and dispatching on `c_v`
computes exactly the composition of one-set segmentation, boolean
sliding-window estimation, cosine similarity over NPMI vectors and
arithmetic-mean aggregation. -/
theorem named_measure_composition (ε : ℝ) (ws : Nat) (c : BowCorpus)
    (txs : List Text) (topics : List Topic) :
    runCoherence "u_mass" ε ws (some c) (some txs) topics =
      .ok (aggregateTopics s_one_pre (fun _ => m_lc ε (bdFreq c)) topics) ∧
    runCoherence "c_v" ε ws (some c) (some txs) topics =
      .ok (aggregateTopics s_one_set
        (fun t => m_cos ε (swFreq ws txs) t) topics) := by
  constructor
  · simp [runCoherence, uMassCoherence]
  · simp [runCoherence, cvCoherence]

/-! ### Definedness of the confirmation measures -/


/-- Counterexample to C4 as stated: on the all-zero frequency table (zero
occurrence counts are explicitly included by the claim), the log
conditional probability divides by an occurrence count of zero and the
NPMI entries of the cosine measure divide by a zero marginal-probability
product, so neither measure has a defined finite value there. -/
theorem confirmation_measures_undefined_at_zero_counts :
    m_lcP eps0 zeroTbl (1, 0) = none ∧
    m_cosP eps0 zeroTbl [0, 1] ([0], [1]) = none := by
  constructor
  · rw [m_lcP, pdiv]
    simp [zeroTbl]
  · have hnp : npmiP eps0 zeroTbl 0 0 = none := by
      rw [npmiP, pdiv]
      simp [zeroTbl, pTerm]
    have hvec : ctxVecP eps0 zeroTbl [0, 1] [0] = none := by
      rw [ctxVecP]
      rw [List.mapM_cons]
      rw [List.mapM_cons, hnp]
      rfl
    rw [m_cosP]
    rw [hvec]
    rfl

lemma pTerm_nonneg (tbl : FreqTable) (t : Term) : 0 ≤ pTerm tbl t :=
  div_nonneg (Nat.cast_nonneg _) (Nat.cast_nonneg _)

lemma pPair_nonneg (tbl : FreqTable) (t1 t2 : Term) : 0 ≤ pPair tbl t1 t2 :=
  div_nonneg (Nat.cast_nonneg _) (Nat.cast_nonneg _)

lemma pTerm_ne_zero {tbl : FreqTable} {t : Term} (hN : tbl.nWindows ≠ 0)
    (h : tbl.occ t ≠ 0) : pTerm tbl t ≠ 0 :=
  div_ne_zero (Nat.cast_ne_zero.mpr h) (Nat.cast_ne_zero.mpr hN)

lemma npmiP_defined {ε : ℝ} (hε : 0 < ε) {tbl : FreqTable} {t1 t2 : Term}
    (h1 : pTerm tbl t1 ≠ 0) (h2 : pTerm tbl t2 ≠ 0)
    (hne : pPair tbl t1 t2 + ε ≠ 1) :
    npmiP ε tbl t1 t2 = some (npmi ε tbl t1 t2) := by
  have hprod : pTerm tbl t1 * pTerm tbl t2 ≠ 0 := mul_ne_zero h1 h2
  have hq : 0 ≤ pPair tbl t1 t2 / (pTerm tbl t1 * pTerm tbl t2) :=
    div_nonneg (pPair_nonneg tbl t1 t2)
      (mul_nonneg (pTerm_nonneg tbl t1) (pTerm_nonneg tbl t2))
  have hnum : ¬(pPair tbl t1 t2 / (pTerm tbl t1 * pTerm tbl t2) + ε ≤ 0) :=
    not_le.mpr (add_pos_of_nonneg_of_pos hq hε)
  have hdenpos : (0 : ℝ) < pPair tbl t1 t2 + ε :=
    add_pos_of_nonneg_of_pos (pPair_nonneg tbl t1 t2) hε
  have hden : ¬(pPair tbl t1 t2 + ε ≤ 0) := not_le.mpr hdenpos
  have hlogne : Real.log (pPair tbl t1 t2 + ε) ≠ 0 := by
    intro hz
    rcases Real.log_eq_zero.mp hz with h | h | h
    · exact absurd h (ne_of_gt hdenpos)
    · exact hne h
    · linarith
  rw [npmiP, pdiv, if_neg hprod]
  simp only [Option.bind_eq_bind, Option.some_bind]
  rw [plog, if_neg hnum]
  simp only [Option.bind_eq_bind, Option.some_bind]
  rw [plog, if_neg hden]
  simp only [Option.bind_eq_bind, Option.some_bind]
  rw [pdiv, if_neg (neg_ne_zero.mpr hlogne)]
  rfl

lemma mapM_eq_some_map {α β : Type} (f : α → Option β) (g : α → β)
    (l : List α) (h : ∀ a ∈ l, f a = some (g a)) :
    l.mapM f = some (l.map g) := by
  induction l with
  | nil => rfl
  | cons a l ih =>
    rw [List.mapM_cons, h a (List.mem_cons_self a l),
      ih (fun x hx => h x (List.mem_cons_of_mem a hx))]
    rfl

lemma ctxVecP_defined {ε : ℝ} {tbl : FreqTable} {topic : Topic}
    {S : List Term}
    (h : ∀ wj ∈ topic, ∀ w ∈ S, npmiP ε tbl w wj = some (npmi ε tbl w wj)) :
    ctxVecP ε tbl topic S = some (ctxVec ε tbl topic S) := by
  rw [ctxVecP, ctxVec]
  apply mapM_eq_some_map
  intro wj hwj
  rw [mapM_eq_some_map _ (fun w => npmi ε tbl w wj) S
    (fun w hw => h wj hwj w hw)]
  rfl

lemma sqNorm_nonneg (u : List ℝ) : 0 ≤ sqNorm u := by
  rw [sqNorm, dotProd, List.zipWith_same]
  exact List.sum_nonneg (by
    intro x hx
    obtain ⟨a, _, rfl⟩ := List.mem_map.mp hx
    exact mul_self_nonneg a)

/-- C4 (amended): both confirmation measures evaluate to a defined finite
value whenever their zero-denominator guards hold — the log conditional
probability requires a nonzero occurrence count for the conditioning term,
and the cosine measure requires a nonzero window count, nonzero occurrence
counts for the involved terms, smoothed joint probabilities different from
one, and a nonzero norm product for the aggregated NPMI vectors. -/
theorem confirmation_measures_finite_when_guarded (ε : ℝ) (hε : 0 < ε)
    (tbl : FreqTable) :
    (∀ sg : Term × Term, tbl.occ sg.2 ≠ 0 → ∃ r, m_lcP ε tbl sg = some r) ∧
    (∀ (topic : Topic) (sg : List Term × List Term),
      tbl.nWindows ≠ 0 →
      (∀ w ∈ sg.1, tbl.occ w ≠ 0) →
      (∀ w ∈ sg.2, tbl.occ w ≠ 0) →
      (∀ wj ∈ topic, tbl.occ wj ≠ 0) →
      (∀ w wj, wj ∈ topic → w ∈ sg.1 ∨ w ∈ sg.2 →
        pPair tbl w wj + ε ≠ 1) →
      sqNorm (ctxVec ε tbl topic sg.1) * sqNorm (ctxVec ε tbl topic sg.2) ≠ 0 →
      m_cosP ε tbl topic sg = some (m_cos ε tbl topic sg)) := by
  constructor
  · intro sg hocc
    have hoccR : ((tbl.occ sg.2 : ℝ)) ≠ 0 := Nat.cast_ne_zero.mpr hocc
    have hpos : (0 : ℝ) < (tbl.co sg.1 sg.2 + ε) / tbl.occ sg.2 := by
      apply div_pos
      · exact add_pos_of_nonneg_of_pos (Nat.cast_nonneg _) hε
      · exact lt_of_le_of_ne (Nat.cast_nonneg _) (Ne.symm hoccR)
    refine ⟨Real.log ((tbl.co sg.1 sg.2 + ε) / tbl.occ sg.2), ?_⟩
    rw [m_lcP, pdiv, if_neg hoccR, Option.some_bind, plog,
      if_neg (not_le.mpr hpos)]
  · intro topic sg hN h1 h2 hT hpair hnorm
    have hv1 : ctxVecP ε tbl topic sg.1 = some (ctxVec ε tbl topic sg.1) :=
      ctxVecP_defined (fun wj hwj w hw =>
        npmiP_defined hε (pTerm_ne_zero hN (h1 w hw))
          (pTerm_ne_zero hN (hT wj hwj)) (hpair w wj hwj (Or.inl hw)))
    have hv2 : ctxVecP ε tbl topic sg.2 = some (ctxVec ε tbl topic sg.2) :=
      ctxVecP_defined (fun wj hwj w hw =>
        npmiP_defined hε (pTerm_ne_zero hN (h2 w hw))
          (pTerm_ne_zero hN (hT wj hwj)) (hpair w wj hwj (Or.inr hw)))
    have hsq : Real.sqrt (sqNorm (ctxVec ε tbl topic sg.1) *
        sqNorm (ctxVec ε tbl topic sg.2)) ≠ 0 :=
      (Real.sqrt_ne_zero (mul_nonneg (sqNorm_nonneg _)
        (sqNorm_nonneg _))).mpr hnorm
    rw [m_cosP, hv1]
    simp only [Option.bind_eq_bind, Option.some_bind]
    rw [hv2]
    simp only [Option.bind_eq_bind, Option.some_bind]
    rw [pdiv, if_neg hsq]
    rw [m_cos, cosSim]


lemma npmi_all_ones {tbl : FreqTable} {t1 t2 : Term} (hN : tbl.nWindows = 1)
    (h1 : tbl.occ t1 = 1) (h2 : tbl.occ t2 = 1) (hco : tbl.co t1 t2 = 1) :
    npmi eps0 tbl t1 t2 = -1 := by
  have hlog : Real.log (1 + eps0) ≠ 0 :=
    ne_of_gt (Real.log_pos (by norm_num [eps0]))
  rw [npmi, pPair, pTerm, pTerm, hN, h1, h2, hco]
  norm_num
  rw [div_neg, div_self hlog]

/-- Witness for the amended C4 on the all-ones frequency table of
`witCorpus`: every guard holds and both measures are defined. -/
theorem confirmation_measures_finite_when_guarded_witness :
    (bdFreq witCorpus).occ 0 ≠ 0 ∧
    (∃ r, m_lcP eps0 (bdFreq witCorpus) (1, 0) = some r) ∧
    (∃ r, m_cosP eps0 (bdFreq witCorpus) [0, 1] ([0], [1]) = some r) := by
  have h00 : npmi eps0 (bdFreq witCorpus) 0 0 = -1 :=
    npmi_all_ones (by decide) (by decide) (by decide) (by decide)
  have h01 : npmi eps0 (bdFreq witCorpus) 0 1 = -1 :=
    npmi_all_ones (by decide) (by decide) (by decide) (by decide)
  have h10 : npmi eps0 (bdFreq witCorpus) 1 0 = -1 :=
    npmi_all_ones (by decide) (by decide) (by decide) (by decide)
  have h11 : npmi eps0 (bdFreq witCorpus) 1 1 = -1 :=
    npmi_all_ones (by decide) (by decide) (by decide) (by decide)
  have hv1 : ctxVec eps0 (bdFreq witCorpus) [0, 1] [0] = [-1, -1] := by
    simp [ctxVec, h00, h01]
  have hv2 : ctxVec eps0 (bdFreq witCorpus) [0, 1] [1] = [-1, -1] := by
    simp [ctxVec, h10, h11]
  have hsqn : sqNorm [(-1 : ℝ), -1] = 2 := by
    rw [sqNorm, dotProd]
    norm_num
  refine ⟨by decide, ?_, ?_⟩
  · exact (confirmation_measures_finite_when_guarded eps0 eps0_pos
      (bdFreq witCorpus)).1 (1, 0) (by decide)
  · refine ⟨m_cos eps0 (bdFreq witCorpus) [0, 1] ([0], [1]), ?_⟩
    apply (confirmation_measures_finite_when_guarded eps0 eps0_pos
      (bdFreq witCorpus)).2 [0, 1] ([0], [1]) (by decide) (by decide)
      (by decide) (by decide)
    · intro w wj hwj hw
      have hw2 : w = 0 ∨ w = 1 := by
        rcases hw with h | h
        · exact Or.inl (List.mem_singleton.mp h)
        · exact Or.inr (List.mem_singleton.mp h)
      have hwj2 : wj = 0 ∨ wj = 1 := by simpa using hwj
      have hco : (bdFreq witCorpus).co w wj = 1 := by
        rcases hw2 with rfl | rfl <;> rcases hwj2 with rfl | rfl <;> decide
      have hN1 : (bdFreq witCorpus).nWindows = 1 := by decide
      rw [pPair, hco, hN1]
      norm_num [eps0]
    · rw [hv1, hv2, hsqn]
      norm_num

end Coherence
